import Mathlib

/-!
Verification of the content relevance/search engine of the Tech-Surf-ChatBot
repository (`contentstackService.js`).

The JavaScript service is shallowly embedded as follows:

* JavaScript values that can sit in an entry field are modelled by `JsValue`
  (strings, numbers, `null`, `undefined`); an entry is an ordered association
  list of field name to value, mirroring a schemaless JS object.
* JS strings are modelled by `String`, with the JS primitives hand-rolled on
  the underlying character lists (`jsToLower` for `toLowerCase`, `jsIncludes`
  for `includes`, `jsSplit` for `split(' ')`, `joinSp` for `join(' ')`) so
  that every definition evaluates inside the kernel.  JS `toLowerCase` and
  `.length` are Unicode-code-unit based; for the ASCII data handled here the
  `Char`-level model agrees with them.
* Fallible code (JS `throw` / `try`-`catch`) is modelled with `Except String`;
  the upstream axios fetch performed by `getAllEntries` is an explicit
  `Except String (List Entry)` parameter describing the outcome of the
  network round-trip.
* JS numbers appearing here are integers (scores) and exact small rationals
  (similarity ratios, relevance); they are modelled by `Int` and `Rat`.  The
  dyadic rounding of IEEE doubles cannot distinguish any of the comparisons
  performed (ratios of tiny integers against the literal `0.7`), so the exact
  model is faithful.
* `Array.prototype.sort` with comparator `(a, b) => b.score - a.score` is a
  stable sort by score descending (ECMA-262 requires sort stability); it is
  modelled by the stable insertion sort `sortByScoreDesc`.
* `Array.prototype.slice(0, end)` keeps JS semantics for negative `end`
  (`jsSlice`).
-/

namespace ContentstackService

/-- A JavaScript value that can occur in a content entry field.  Strings are
the well-formed case; numbers, `null` and `undefined` model the
missing/malformed fields the spec talks about. -/
inductive JsValue where
  | str (s : String)
  | num (n : Int)
  | nullv
  | undefv
deriving DecidableEq

/-- JS truthiness for the modelled values: non-empty strings and non-zero
numbers are truthy, `null` and `undefined` are falsy. -/
def truthy : JsValue → Bool
  | .str s => decide (s ≠ "")
  | .num n => decide (n ≠ 0)
  | .nullv => false
  | .undefv => false

/-- JS `a || b`. -/
def jsOr (a b : JsValue) : JsValue := if truthy a then a else b

/-- A content entry: a schemaless JS object, i.e. an ordered association list
of field names to values (insertion order, no duplicate keys in practice). -/
abbrev Entry := List (String × JsValue)

/-- JS property access `entry.k`: the value stored under `k`, or `undefined`. -/
def getField (e : Entry) (k : String) : JsValue :=
  match e.find? (fun p => decide (p.1 = k)) with
  | some p => p.2
  | none => .undefv

/-- JS `String.prototype.toLowerCase` (ASCII case mapping). -/
def jsToLower (s : String) : String := ⟨s.data.map Char.toLower⟩

/-- Prefix test on character lists (`true` iff the first list starts the
second). -/
def startsWithB : List Char → List Char → Bool
  | [], _ => true
  | _ :: _, [] => false
  | a :: as, b :: bs => a = b && startsWithB as bs

/-- Substring test on character lists: does `pat` occur contiguously in `l`? -/
def containsB (pat : List Char) : List Char → Bool
  | [] => startsWithB pat []
  | c :: t => startsWithB pat (c :: t) || containsB pat t

/-- JS `s.includes(pat)`. -/
def jsIncludes (s pat : String) : Bool := containsB pat.data s.data

/-- JS `s.split(' ')` on the character list: split at every space, keeping
empty pieces. -/
def jsSplitList : List Char → List (List Char)
  | [] => [[]]
  | c :: t =>
    if c = ' ' then [] :: jsSplitList t
    else
      match jsSplitList t with
      | [] => [[c]]
      | h :: r => (c :: h) :: r

/-- JS `s.split(' ')`. -/
def jsSplit (s : String) : List String := (jsSplitList s.data).map String.mk

/-- JS `list.join(' ')`. -/
def joinSp : List String → String
  | [] => ""
  | [a] => a
  | a :: b :: t => a ++ " " ++ joinSp (b :: t)

/-- `Object.values(entry).filter(v => typeof v === 'string')`. -/
def stringValues (e : Entry) : List String :=
  e.filterMap (fun p => match p.2 with | .str s => some s | _ => none)

/-- The catch-all text of `searchContent`:
`Object.values(entry).filter(typeof string).join(' ').toLowerCase()`. -/
def allTextOf (e : Entry) : String := jsToLower (joinSp (stringValues e))

/-- JS `(v || '').toLowerCase()`: falsy values default to the empty string;
a truthy non-string has no `toLowerCase` method, so a `TypeError` is thrown. -/
def lowerOrEmpty (v : JsValue) : Except String String :=
  match jsOr v (.str "") with
  | .str s => .ok (jsToLower s)
  | _ => .error "TypeError: toLowerCase is not a function"

/-- Total companion of `lowerOrEmpty`: the string it yields when it does not
throw (empty string for every non-string value). -/
def safeLower (v : JsValue) : String :=
  match jsOr v (.str "") with
  | .str s => jsToLower s
  | _ => ""

/-- A field value on which `(v || '').toLowerCase()` cannot throw: a string,
or a falsy value (which the `|| ''` defaults to the empty string). -/
def safeVal : JsValue → Bool
  | .str _ => true
  | .num n => decide (n = 0)
  | .nullv => true
  | .undefv => true

/-- An entry none of whose title/description-like fields makes the scorers
throw. -/
def entrySafe (e : Entry) : Bool :=
  safeVal (getField e "title") && safeVal (getField e "description") &&
  safeVal (getField e "paris") && safeVal (getField e "india") &&
  safeVal (getField e "content") && safeVal (getField e "body")

/-- One cell of the Levenshtein dynamic-programming matrix of
`levenshteinDistance`: given row `i` (`prev`, indexed by column), compute row
`i+1` at column `j`.  `matrix[i+1][0] = i+1`; for `j+1` the source compares
`str2.charAt(i)` with `str1.charAt(j)` and takes the diagonal on a match,
else `1 + min(diagonal, left, up)` (the source writes
`Math.min(diag+1, left+1, up+1)`). -/
def levCell (s1 s2 : List Char) (prev : Nat → Nat) (i : Nat) : Nat → Nat
  | 0 => i + 1
  | j + 1 =>
    if s2[i]? = s1[j]? then prev j
    else min (prev j + 1) (min (levCell s1 s2 prev i j + 1) (prev (j + 1) + 1))

/-- `matrix[i][j]` of the source's dynamic program: row `0` is `0..len(str1)`,
row `i+1` is produced from row `i` by `levCell`. -/
def levMat (s1 s2 : List Char) : Nat → Nat → Nat
  | 0, j => j
  | i + 1, j => levCell s1 s2 (levMat s1 s2 i) i j

/-- `levenshteinDistance(str1, str2)`: the corner `matrix[str2.length][str1.length]`
of the dynamic-programming matrix. -/
def levenshteinDistance (str1 str2 : String) : Nat :=
  levMat str1.data str2.data str2.data.length str1.data.length

/-- The classic Levenshtein edit distance (insertion, deletion, substitution
each of cost 1), written as the textbook recursion on the two strings.  This
is the specification-side reference definition for `levenshteinDistance`. -/
def classicEditDist : List Char → List Char → Nat
  | [], ys => ys.length
  | _ :: xs, [] => xs.length + 1
  | x :: xs, y :: ys =>
    if x = y then classicEditDist xs ys
    else 1 + min (classicEditDist xs ys)
           (min (classicEditDist (x :: xs) ys) (classicEditDist xs (y :: ys)))

/-- `calculateSimilarity(str1, str2)`:
`(longer.length - editDistance(longer, shorter)) / longer.length`, with the
two arguments ordered by length (`longer = str1` only when strictly longer)
and result `1.0` when the longer string is empty. -/
def calculateSimilarity (str1 str2 : String) : Rat :=
  let longer := if str2.length < str1.length then str1 else str2
  let shorter := if str2.length < str1.length then str2 else str1
  if longer.length = 0 then 1
  else Rat.divInt ((longer.length : Int) - (levenshteinDistance longer shorter : Int))
         (longer.length : Int)

/-- `fuzzyMatch(term, content)`: some space-split word of `content` has, with
`term`, both length at least 3 and similarity strictly above `0.7`. -/
def fuzzyMatch (term content : String) : Bool :=
  (jsSplit content).any fun word =>
    if word.length < 3 || term.length < 3 then false
    else decide (Rat.divInt 7 10 < calculateSimilarity term word)

/-- The synonym mapping of `enhanceQuery`, in declaration order. -/
def synonymPairs : List (String × List String) :=
  [("travel", ["trip", "journey", "vacation", "tour"]),
   ("food", ["cuisine", "dining", "restaurant", "meal"]),
   ("hotel", ["accommodation", "lodging", "stay"]),
   ("activity", ["attraction", "experience", "thing to do"])]

/-- `enhanceQuery(query)`: for each trigger key contained in the lowercased
query, append a space and the space-joined synonym list to the accumulated
query, in mapping-declaration order. -/
def enhanceQuery (query : String) : String :=
  synonymPairs.foldl
    (fun acc p => if jsIncludes (jsToLower query) p.1 then acc ++ (" " ++ joinSp p.2) else acc)
    query

/-- An entry as returned by the search pipelines: the original fields spread
together with the transient `score` (and, for intelligent search,
`relevance`) annotations; `none` models an absent (`undefined`) annotation. -/
structure SEntry where
  fields : Entry
  score : Option Int
  relevance : Option Rat
deriving DecidableEq

/-- The sort key used by the comparator `(a, b) => b.score - a.score`
(`undefined` scores never occur on the sorting path; `getD 0` mirrors their
numeric coercion irrelevance). -/
def scoreKey (e : SEntry) : Int := e.score.getD 0

/-- Stable insertion into a list sorted by `scoreKey` descending: the new
element goes before the first element whose key is not strictly larger, so
earlier-fetched entries stay first among equal scores. -/
def insertDesc (x : SEntry) : List SEntry → List SEntry
  | [] => [x]
  | h :: t => if scoreKey x < scoreKey h then h :: insertDesc x t else x :: h :: t

/-- The stable descending-by-score sort performed by
`.sort((a, b) => b.score - a.score)`. -/
def sortByScoreDesc : List SEntry → List SEntry
  | [] => []
  | h :: t => insertDesc h (sortByScoreDesc t)

/-- JS `array.slice(0, stop)`: a negative `stop` counts from the end
(clamped at 0), a nonnegative one truncates. -/
def jsSlice (l : List α) (stop : Int) : List α :=
  if stop < 0 then l.take (l.length - stop.natAbs) else l.take stop.toNat

/-- Per-term points of plain `searchContent`: title match 5, description
match 3, whole-entry-text match 1. -/
def plainTermPoints (title descr allText term : String) : Int :=
  (if jsIncludes title term then 5 else 0) + (if jsIncludes descr term then 3 else 0) +
    (if jsIncludes allText term then 1 else 0)

/-- The `searchTerms.forEach` accumulation of plain `searchContent`. -/
def plainScoreTerms (title descr allText : String) (terms : List String) : Int :=
  terms.foldl (fun sc t => sc + plainTermPoints title descr allText t) 0

/-- The description probe of `searchContent`:
`entry.description || entry.paris || entry.india || entry.content || entry.body`. -/
def descChainPlain (e : Entry) : JsValue :=
  jsOr (getField e "description") (jsOr (getField e "paris")
    (jsOr (getField e "india") (jsOr (getField e "content") (getField e "body"))))

/-- The description probe of `intelligentSearch`:
`entry.description || entry.paris || entry.india`. -/
def descChainIntel (e : Entry) : JsValue :=
  jsOr (getField e "description") (jsOr (getField e "paris") (getField e "india"))

/-- The scoring map of `searchContent` on one entry; throws (`TypeError`) when
the title or probed description field is truthy but not a string. -/
def scorePlainEntry (terms : List String) (e : Entry) : Except String SEntry :=
  match lowerOrEmpty (getField e "title") with
  | .error m => .error m
  | .ok title =>
    match lowerOrEmpty (descChainPlain e) with
    | .error m => .error m
    | .ok descr => .ok ⟨e, some (plainScoreTerms title descr (allTextOf e) terms), none⟩

/-- Per-term points of `intelligentSearch`: title match 5, description match
2, fuzzy match against the combined text 1. -/
def intelTermPoints (title descr content term : String) : Int :=
  (if jsIncludes title term then 5 else 0) + (if jsIncludes descr term then 2 else 0) +
    (if fuzzyMatch term content then 1 else 0)

/-- The `searchTerms.forEach` accumulation of `intelligentSearch`. -/
def intelScoreTerms (title descr content : String) (terms : List String) : Int :=
  terms.foldl (fun sc t => sc + intelTermPoints title descr content t) 0

/-- The scoring map of `intelligentSearch` on one entry: exact-phrase bonus
10 against the original query, then the per-term weights; `relevance` is the
score over `max(searchTerms.length, 1)`. -/
def scoreIntelEntry (query : String) (terms : List String) (e : Entry) : Except String SEntry :=
  match lowerOrEmpty (getField e "title") with
  | .error m => .error m
  | .ok title =>
    match lowerOrEmpty (descChainIntel e) with
    | .error m => .error m
    | .ok descr =>
      let content := title ++ " " ++ descr
      let sc : Int := (if jsIncludes content (jsToLower query) then 10 else 0) +
        intelScoreTerms title descr content terms
      .ok ⟨e, some sc, some (Rat.divInt sc ((max terms.length 1 : Nat) : Int))⟩

/-- `Array.prototype.map` with a callback that can throw: the first throw
aborts the whole map. -/
def mapE (f : α → Except String β) : List α → Except String (List β)
  | [] => .ok []
  | a :: l =>
    match f a with
    | .error m => .error m
    | .ok b =>
      match mapE f l with
      | .error m => .error m
      | .ok bs => .ok (b :: bs)

/-- `getAllEntries`: on upstream failure rethrows
`Failed to fetch entries: <message>`. -/
def getAllEntries (fetch : Except String (List Entry)) : Except String (List Entry) :=
  match fetch with
  | .ok entries => .ok entries
  | .error m => .error ("Failed to fetch entries: " ++ m)

/-- The body of `searchContent` after the entries have been fetched: empty
query returns the first `maxResults` entries unscored; otherwise score every
entry, drop nonpositive scores, stable-sort descending, truncate. -/
def searchBody (entries : List Entry) (query : String) (maxResults : Int) :
    Except String (List SEntry) :=
  if query = "" then
    .ok ((jsSlice entries maxResults).map fun e => ⟨e, none, none⟩)
  else
    match mapE (scorePlainEntry (jsSplit (jsToLower query))) entries with
    | .error m => .error m
    | .ok scored =>
      .ok (jsSlice (sortByScoreDesc (scored.filter fun e => decide (0 < scoreKey e))) maxResults)

/-- `searchContent({query, contentType, maxResults})`.  The `fetch` argument
is the outcome of the upstream entry fetch for the requested content type;
any failure inside the `try` block is rethrown as
`Failed to search content: <message>`. -/
def searchContent (fetch : Except String (List Entry)) (query : String) (maxResults : Int) :
    Except String (List SEntry) :=
  match
    ((match getAllEntries fetch with
      | .error m => .error m
      | .ok entries => searchBody entries query maxResults) : Except String (List SEntry)) with
  | .ok r => .ok r
  | .error m => .error ("Failed to search content: " ++ m)

/-- The body of `intelligentSearch` after the entries have been fetched. -/
def intelBody (allEntries : List Entry) (query : String) (maxResults : Int) :
    Except String (List SEntry) :=
  if query = "" ∨ allEntries.length = 0 then
    .ok ((jsSlice allEntries maxResults).map fun e => ⟨e, none, none⟩)
  else
    match mapE (scoreIntelEntry query (jsSplit (jsToLower (enhanceQuery query)))) allEntries with
    | .error m => .error m
    | .ok scored =>
      .ok (jsSlice (sortByScoreDesc (scored.filter fun e => decide (0 < scoreKey e))) maxResults)

/-- `intelligentSearch({query, contentType, maxResults})`: on any failure of
the enhanced path it falls back to `searchContent` with the same parameters
(`fallbackFetch` is the outcome of the fallback's own upstream fetch). -/
def intelligentSearch (fetch fallbackFetch : Except String (List Entry)) (query : String)
    (maxResults : Int) : Except String (List SEntry) :=
  match
    ((match getAllEntries fetch with
      | .error m => .error m
      | .ok entries => intelBody entries query maxResults) : Except String (List SEntry)) with
  | .ok r => .ok r
  | .error _ => searchContent fallbackFetch query maxResults

/-- The score annotation `searchContent` computes for one entry when nothing
throws (missing/falsy fields read as the empty string). -/
def plainAnnotate (terms : List String) (e : Entry) : SEntry :=
  ⟨e, some (plainScoreTerms (safeLower (getField e "title")) (safeLower (descChainPlain e))
      (allTextOf e) terms), none⟩

/-- The total score `intelligentSearch` computes for one entry when nothing
throws. -/
def intelScoreOf (query : String) (terms : List String) (e : Entry) : Int :=
  (if jsIncludes (safeLower (getField e "title") ++ " " ++ safeLower (descChainIntel e))
      (jsToLower query) then 10 else 0) +
    intelScoreTerms (safeLower (getField e "title")) (safeLower (descChainIntel e))
      (safeLower (getField e "title") ++ " " ++ safeLower (descChainIntel e)) terms

/-- The annotation `intelligentSearch` computes for one entry when nothing
throws. -/
def intelAnnotate (query : String) (terms : List String) (e : Entry) : SEntry :=
  ⟨e, some (intelScoreOf query terms e),
    some (Rat.divInt (intelScoreOf query terms e) ((max terms.length 1 : Nat) : Int))⟩

/-- The scored list of `searchContent` in fetch order. -/
def plainReference (entries : List Entry) (query : String) : List SEntry :=
  entries.map (plainAnnotate (jsSplit (jsToLower query)))

/-- The scored list of `intelligentSearch` in fetch order. -/
def intelReference (entries : List Entry) (query : String) : List SEntry :=
  entries.map (intelAnnotate query (jsSplit (jsToLower (enhanceQuery query))))

/-- The ranked-output invariant: every returned entry has a positive score
annotation, at most `n` entries are returned, scores are non-increasing, and
for each score value the returned entries extend to the scored fetch-order
list restricted to that value (stability). -/
def RankedProps (result : List SEntry) (n : Nat) (ref : List SEntry) : Prop :=
  (∀ e ∈ result, ∃ k, e.score = some k ∧ 0 < k) ∧
  result.length ≤ n ∧
  result.Pairwise (fun a b => scoreKey b ≤ scoreKey a) ∧
  (∀ s : Int, ∃ t, result.filter (fun e => decide (scoreKey e = s)) ++ t =
    ref.filter (fun e => decide (scoreKey e = s)))

instance [DecidableEq ε] [DecidableEq α] : DecidableEq (Except ε α) := fun a b =>
  match a, b with
  | .error x, .error y =>
    if h : x = y then .isTrue (congrArg Except.error h)
    else .isFalse fun hh => h (Except.noConfusion hh id)
  | .ok x, .ok y =>
    if h : x = y then .isTrue (congrArg Except.ok h)
    else .isFalse fun hh => h (Except.noConfusion hh id)
  | .error _, .ok _ => .isFalse fun hh => Except.noConfusion hh
  | .ok _, .error _ => .isFalse fun hh => Except.noConfusion hh

/-! ### Basic facts about the hand-rolled string primitives -/

theorem startsWithB_iff (p : List Char) : ∀ l, startsWithB p l = true ↔ ∃ r, l = p ++ r := by
  induction p with
  | nil =>
    intro l
    simp [startsWithB]
  | cons a as ih =>
    intro l
    cases l with
    | nil =>
      simp [startsWithB]
    | cons b bs =>
      simp only [startsWithB, Bool.and_eq_true, decide_eq_true_eq, ih, List.cons_append]
      constructor
      · rintro ⟨rfl, r, rfl⟩
        exact ⟨r, rfl⟩
      · rintro ⟨r, h⟩
        cases h
        exact ⟨rfl, r, rfl⟩

theorem containsB_iff (p : List Char) : ∀ l, containsB p l = true ↔ ∃ u v, l = u ++ p ++ v := by
  intro l
  induction l with
  | nil =>
    cases p with
    | nil => simp [containsB, startsWithB]
    | cons a as =>
      simp only [containsB, startsWithB]
      constructor
      · intro h
        cases h
      · rintro ⟨u, v, h⟩
        exact absurd h (by simp)
  | cons c t ih =>
    simp only [containsB, Bool.or_eq_true, startsWithB_iff, ih]
    constructor
    · rintro (⟨r, h⟩ | ⟨u, v, rfl⟩)
      · exact ⟨[], r, by simpa using h⟩
      · exact ⟨c :: u, v, by simp⟩
    · rintro ⟨u, v, h⟩
      cases u with
      | nil =>
        exact Or.inl ⟨v, by simpa using h⟩
      | cons u0 us =>
        rw [List.cons_append, List.cons_append] at h
        cases h
        exact Or.inr ⟨us, v, by simp⟩

theorem containsB_map {p l : List Char} (f : Char → Char) (h : containsB p l = true) :
    containsB (p.map f) (l.map f) = true := by
  rcases (containsB_iff p l).mp h with ⟨u, v, rfl⟩
  exact (containsB_iff _ _).mpr ⟨u.map f, v.map f, by simp⟩

/-- Substring containment is transitive: if `a` occurs in `b` and `b` occurs
in `c`, then `a` occurs in `c`. -/
theorem jsIncludes_trans {a b c : String} (hab : jsIncludes b a = true)
    (hbc : jsIncludes c b = true) : jsIncludes c a = true := by
  unfold jsIncludes at *
  rcases (containsB_iff _ _).mp hab with ⟨u, v, hb⟩
  rcases (containsB_iff _ _).mp hbc with ⟨u2, v2, hc⟩
  refine (containsB_iff _ _).mpr ⟨u2 ++ u, v ++ v2, ?_⟩
  rw [hc, hb]
  simp

/-- A member of a list of strings occurs contiguously in their space-join. -/
theorem jsIncludes_joinSp {l : List String} {a : String} (h : a ∈ l) :
    jsIncludes (joinSp l) a = true := by
  unfold jsIncludes
  induction l with
  | nil => cases h
  | cons x t ih =>
    rcases List.mem_cons.mp h with rfl | hmem
    · refine (containsB_iff _ _).mpr ⟨[], ?_, ?_⟩
      · cases t with
        | nil => exact []
        | cons b s => exact (" " ++ joinSp (b :: s)).data
      · cases t with
        | nil => simp [joinSp]
        | cons b s => simp [joinSp]
    · cases t with
      | nil => cases hmem
      | cons b s =>
        rcases (containsB_iff _ _).mp (ih hmem) with ⟨u, v, hsplit⟩
        refine (containsB_iff _ _).mpr ⟨(x ++ " ").data ++ u, v, ?_⟩
        show (x ++ " " ++ joinSp (b :: s)).data = _
        rw [String.data_append, hsplit]
        simp

/-- `toLowerCase` preserves substring containment. -/
theorem jsIncludes_jsToLower {s pat : String} (h : jsIncludes s pat = true) :
    jsIncludes (jsToLower s) (jsToLower pat) = true :=
  containsB_map Char.toLower h

/-! ### The scorers on well-formed entries -/

theorem safeVal_jsOr {a b : JsValue} (ha : safeVal a = true) (hb : safeVal b = true) :
    safeVal (jsOr a b) = true := by
  unfold jsOr
  cases hab : truthy a <;> simp [ha, hb]

theorem jsOr_empty_safe {v : JsValue} (h : safeVal v = true) :
    ∃ s, jsOr v (.str "") = .str s := by
  cases v with
  | str s =>
    unfold jsOr
    split
    · exact ⟨s, rfl⟩
    · exact ⟨"", rfl⟩
  | num n =>
    have hn : n = 0 := by simpa [safeVal] using h
    subst hn
    exact ⟨"", rfl⟩
  | nullv => exact ⟨"", rfl⟩
  | undefv => exact ⟨"", rfl⟩

theorem lowerOrEmpty_safe {v : JsValue} (h : safeVal v = true) :
    lowerOrEmpty v = .ok (safeLower v) := by
  obtain ⟨s, hs⟩ := jsOr_empty_safe h
  unfold lowerOrEmpty safeLower
  rw [hs]

theorem entrySafe_descChainPlain {e : Entry} (h : entrySafe e = true) :
    safeVal (descChainPlain e) = true := by
  unfold entrySafe at h
  simp only [Bool.and_eq_true] at h
  exact safeVal_jsOr h.1.1.1.1.2 (safeVal_jsOr h.1.1.1.2
    (safeVal_jsOr h.1.1.2 (safeVal_jsOr h.1.2 h.2)))

theorem entrySafe_descChainIntel {e : Entry} (h : entrySafe e = true) :
    safeVal (descChainIntel e) = true := by
  unfold entrySafe at h
  simp only [Bool.and_eq_true] at h
  exact safeVal_jsOr h.1.1.1.1.2 (safeVal_jsOr h.1.1.1.2 h.1.1.2)

theorem entrySafe_title {e : Entry} (h : entrySafe e = true) :
    safeVal (getField e "title") = true := by
  unfold entrySafe at h
  simp only [Bool.and_eq_true] at h
  exact h.1.1.1.1.1

theorem scorePlainEntry_safe {e : Entry} (terms : List String) (h : entrySafe e = true) :
    scorePlainEntry terms e = .ok (plainAnnotate terms e) := by
  unfold scorePlainEntry plainAnnotate
  rw [lowerOrEmpty_safe (entrySafe_title h), lowerOrEmpty_safe (entrySafe_descChainPlain h)]

theorem scoreIntelEntry_safe {e : Entry} (query : String) (terms : List String)
    (h : entrySafe e = true) :
    scoreIntelEntry query terms e = .ok (intelAnnotate query terms e) := by
  unfold scoreIntelEntry intelAnnotate intelScoreOf
  rw [lowerOrEmpty_safe (entrySafe_title h), lowerOrEmpty_safe (entrySafe_descChainIntel h)]

theorem mapE_congr_ok {f : α → Except String β} {g : α → β} :
    ∀ {l : List α}, (∀ a ∈ l, f a = .ok (g a)) → mapE f l = .ok (l.map g) := by
  intro l
  induction l with
  | nil => intro _; rfl
  | cons a t ih =>
    intro h
    have ha := h a (by simp)
    have ht := ih fun b hb => h b (List.mem_cons_of_mem a hb)
    simp [mapE, ha, ht]

/-- `searchContent` on a successful fetch of well-formed entries and a
non-empty query: filter, stable sort, truncate over the fetch-order scored
list. -/
theorem searchContent_ok {entries : List Entry} {query : String} (maxResults : Int)
    (hq : query ≠ "") (hsafe : ∀ e ∈ entries, entrySafe e = true) :
    searchContent (.ok entries) query maxResults =
      .ok (jsSlice (sortByScoreDesc ((plainReference entries query).filter
        fun e => decide (0 < scoreKey e))) maxResults) := by
  have hbody : searchBody entries query maxResults =
      .ok (jsSlice (sortByScoreDesc ((plainReference entries query).filter
        fun e => decide (0 < scoreKey e))) maxResults) := by
    unfold searchBody
    rw [if_neg hq, mapE_congr_ok fun e he => scorePlainEntry_safe _ (hsafe e he)]
    rfl
  have hshape : searchContent (.ok entries) query maxResults =
      match searchBody entries query maxResults with
      | .ok r => .ok r
      | .error m => .error ("Failed to search content: " ++ m) := rfl
  rw [hshape, hbody]

/-- `intelligentSearch` on a successful first fetch of well-formed entries
and a non-empty query: the enhanced path succeeds, with the same
filter/sort/truncate shape over its own scored list. -/
theorem intelligentSearch_ok {entries : List Entry} {query : String}
    (fallbackFetch : Except String (List Entry)) (maxResults : Int)
    (hq : query ≠ "") (hsafe : ∀ e ∈ entries, entrySafe e = true) :
    intelligentSearch (.ok entries) fallbackFetch query maxResults =
      .ok (jsSlice (sortByScoreDesc ((intelReference entries query).filter
        fun e => decide (0 < scoreKey e))) maxResults) := by
  have hbody : intelBody entries query maxResults =
      .ok (jsSlice (sortByScoreDesc ((intelReference entries query).filter
        fun e => decide (0 < scoreKey e))) maxResults) := by
    unfold intelBody
    cases entries with
    | nil => simp [intelReference, jsSlice, sortByScoreDesc]
    | cons e0 rest =>
      rw [if_neg (by simp [hq])]
      rw [mapE_congr_ok fun e he => scoreIntelEntry_safe _ _ (hsafe e he)]
      rfl
  have hshape : intelligentSearch (.ok entries) fallbackFetch query maxResults =
      match intelBody entries query maxResults with
      | .ok r => .ok r
      | .error _ => searchContent fallbackFetch query maxResults := rfl
  rw [hshape, hbody]

/-! ### The stable descending sort and the ranked-output invariant -/

theorem jsSlice_ofNat (l : List α) (n : Nat) : jsSlice l (n : Int) = l.take n := by
  unfold jsSlice
  rw [if_neg (by omega), Int.toNat_ofNat]

theorem mem_insertDesc {x a : SEntry} : ∀ {l : List SEntry},
    a ∈ insertDesc x l ↔ a = x ∨ a ∈ l := by
  intro l
  induction l with
  | nil => simp [insertDesc]
  | cons h t ih =>
    unfold insertDesc
    split
    · simp only [List.mem_cons, ih]
      tauto
    · simp only [List.mem_cons]

theorem pairwise_insertDesc {x : SEntry} : ∀ {l : List SEntry},
    l.Pairwise (fun a b => scoreKey b ≤ scoreKey a) →
    (insertDesc x l).Pairwise (fun a b => scoreKey b ≤ scoreKey a) := by
  intro l
  induction l with
  | nil =>
    intro _
    simp [insertDesc]
  | cons h t ih =>
    intro hp
    rcases List.pairwise_cons.mp hp with ⟨hht, hpt⟩
    unfold insertDesc
    split
    · rename_i hlt
      refine List.pairwise_cons.mpr ⟨?_, ih hpt⟩
      intro b hb
      rcases mem_insertDesc.mp hb with rfl | hbt
      · omega
      · exact hht b hbt
    · rename_i hge
      refine List.pairwise_cons.mpr ⟨?_, hp⟩
      intro b hb
      rcases List.mem_cons.mp hb with rfl | hbt
      · omega
      · have := hht b hbt
        omega

theorem sortByScoreDesc_pairwise : ∀ (l : List SEntry),
    (sortByScoreDesc l).Pairwise (fun a b => scoreKey b ≤ scoreKey a) := by
  intro l
  induction l with
  | nil => simp [sortByScoreDesc]
  | cons h t ih => exact pairwise_insertDesc ih

theorem mem_sortByScoreDesc {a : SEntry} : ∀ {l : List SEntry},
    a ∈ sortByScoreDesc l ↔ a ∈ l := by
  intro l
  induction l with
  | nil => simp [sortByScoreDesc]
  | cons h t ih =>
    unfold sortByScoreDesc
    rw [mem_insertDesc, ih, List.mem_cons]

theorem filter_insertDesc (x : SEntry) (s : Int) : ∀ (l : List SEntry),
    (insertDesc x l).filter (fun e => decide (scoreKey e = s)) =
      if scoreKey x = s then x :: l.filter (fun e => decide (scoreKey e = s))
      else l.filter (fun e => decide (scoreKey e = s)) := by
  intro l
  induction l with
  | nil =>
    simp only [insertDesc, List.filter_cons, List.filter_nil]
    split <;> simp_all
  | cons h t ih =>
    unfold insertDesc
    split
    · rename_i hlt
      rw [List.filter_cons, ih]
      by_cases hxs : scoreKey x = s
      · have hhs : ¬ scoreKey h = s := by omega
        simp [hxs, hhs, List.filter_cons]
      · simp only [hxs, if_neg hxs]
        by_cases hhs : scoreKey h = s <;> simp [hhs, List.filter_cons]
    · rename_i hge
      by_cases hxs : scoreKey x = s <;> simp [hxs, List.filter_cons]

theorem sortByScoreDesc_filter (s : Int) : ∀ (l : List SEntry),
    (sortByScoreDesc l).filter (fun e => decide (scoreKey e = s)) =
      l.filter (fun e => decide (scoreKey e = s)) := by
  intro l
  induction l with
  | nil => rfl
  | cons h t ih =>
    unfold sortByScoreDesc
    rw [filter_insertDesc h s (sortByScoreDesc t), ih, List.filter_cons]
    split <;> simp_all

/-- The full ranking pipeline (`filter score > 0`, stable sort descending,
take `n`) satisfies the ranked-output invariant with respect to the scored
fetch-order list. -/
theorem rankedProps_pipeline (scored : List SEntry) (n : Nat) :
    RankedProps ((sortByScoreDesc (scored.filter fun e => decide (0 < scoreKey e))).take n)
      n scored := by
  set F := scored.filter fun e => decide (0 < scoreKey e) with hF
  have hmemF : ∀ e ∈ (sortByScoreDesc F).take n, 0 < scoreKey e := by
    intro e he
    have h1 : e ∈ sortByScoreDesc F := List.mem_of_mem_take he
    have h2 : e ∈ F := mem_sortByScoreDesc.mp h1
    have := List.of_mem_filter h2
    simpa using this
  refine ⟨?_, ?_, ?_, ?_⟩
  · intro e he
    have hpos := hmemF e he
    cases hsc : e.score with
    | none => simp [scoreKey, hsc] at hpos
    | some k =>
      refine ⟨k, rfl, ?_⟩
      simpa [scoreKey, hsc] using hpos
  · exact List.length_take_le n _
  · exact (sortByScoreDesc_pairwise F).sublist (List.take_sublist n _)
  · intro s
    by_cases hs : 0 < s
    · refine ⟨((sortByScoreDesc F).drop n).filter (fun e => decide (scoreKey e = s)), ?_⟩
      rw [← List.filter_append, List.take_append_drop, sortByScoreDesc_filter, hF,
        List.filter_filter]
      refine List.filter_congr ?_
      intro e _
      by_cases hes : scoreKey e = s
      · simp [hes, hs]
      · simp [hes]
    · refine ⟨scored.filter (fun e => decide (scoreKey e = s)), ?_⟩
      have hnil : ((sortByScoreDesc F).take n).filter (fun e => decide (scoreKey e = s)) = [] := by
        rw [List.filter_eq_nil_iff]
        intro e he
        have := hmemF e he
        simp only [decide_eq_true_eq]
        omega
      rw [hnil, List.nil_append]

/-! ### Levenshtein: the dynamic program equals the classic edit distance -/

theorem classicEditDist_nil_left (ys : List Char) : classicEditDist [] ys = ys.length := by
  simp [classicEditDist]

theorem classicEditDist_cons_nil (x : Char) (xs : List Char) :
    classicEditDist (x :: xs) [] = xs.length + 1 := by
  simp [classicEditDist]

theorem classicEditDist_nil_right (l : List Char) : classicEditDist l [] = l.length := by
  cases l with
  | nil => rw [classicEditDist_nil_left]
  | cons x xs => rw [classicEditDist_cons_nil, List.length_cons]

theorem classicEditDist_cons_cons (x y : Char) (xs ys : List Char) :
    classicEditDist (x :: xs) (y :: ys) =
      if x = y then classicEditDist xs ys
      else 1 + min (classicEditDist xs ys)
        (min (classicEditDist (x :: xs) ys) (classicEditDist xs (y :: ys))) := by
  rw [classicEditDist]

/-- Edit distance from a one-character string. -/
theorem classicEditDist_single_left (x : Char) : ∀ (l : List Char),
    classicEditDist [x] l = if x ∈ l then l.length - 1 else max l.length 1 := by
  intro l
  induction l with
  | nil =>
    rw [classicEditDist_cons_nil]
    simp
  | cons a t ih =>
    rw [classicEditDist_cons_cons]
    by_cases hxa : x = a
    · rw [if_pos hxa, classicEditDist_nil_left, if_pos (by simp [hxa])]
      simp
    · rw [if_neg hxa, ih, classicEditDist_nil_left, classicEditDist_nil_left]
      by_cases hxt : x ∈ t
      · have ht : t ≠ [] := by rintro rfl; cases hxt
        have hlen : 1 ≤ t.length := List.length_pos.mpr ht
        rw [if_pos hxt, if_pos (by simp [hxt])]
        simp only [List.length_cons]
        omega
      · have hmem : ¬ x ∈ a :: t := by simp [hxa, hxt]
        rw [if_neg hxt, if_neg hmem]
        simp only [List.length_cons]
        omega

/-- Edit distance to a one-character string. -/
theorem classicEditDist_single_right (y : Char) : ∀ (l : List Char),
    classicEditDist l [y] = if y ∈ l then l.length - 1 else max l.length 1 := by
  intro l
  induction l with
  | nil =>
    rw [classicEditDist_nil_left]
    simp
  | cons a t ih =>
    rw [classicEditDist_cons_cons]
    by_cases hay : a = y
    · rw [if_pos hay, classicEditDist_nil_right, if_pos (by simp [hay.symm])]
      simp
    · have hya : ¬ y = a := fun h => hay h.symm
      rw [if_neg hay, ih, classicEditDist_nil_right, classicEditDist_cons_nil]
      by_cases hyt : y ∈ t
      · have ht : t ≠ [] := by rintro rfl; cases hyt
        have hlen : 1 ≤ t.length := List.length_pos.mpr ht
        rw [if_pos hyt, if_pos (by simp [hyt])]
        simp only [List.length_cons]
        omega
      · have hmem : ¬ y ∈ a :: t := by simp [hya, hyt]
        rw [if_neg hyt, if_neg hmem]
        simp only [List.length_cons]
        omega

/-- The classic edit distance also satisfies the last-character (matrix-style)
recurrence: peeling the final characters gives diagonal copy on a match, else
one plus the minimum over the three shorter problems. -/
theorem classicEditDist_concat : ∀ (n : Nat) (xs ys : List Char), xs.length + ys.length ≤ n →
    ∀ x y, classicEditDist (xs ++ [x]) (ys ++ [y]) =
      if x = y then classicEditDist xs ys
      else 1 + min (classicEditDist xs ys)
        (min (classicEditDist (xs ++ [x]) ys) (classicEditDist xs (ys ++ [y]))) := by
  intro n
  induction n with
  | zero =>
    intro xs ys hlen x y
    have hxs : xs = [] := by
      cases xs with
      | nil => rfl
      | cons a t => simp at hlen
    have hys : ys = [] := by
      cases ys with
      | nil => rfl
      | cons a t => simp at hlen
    subst hxs; subst hys
    rw [List.nil_append, List.nil_append, classicEditDist_cons_cons]
  | succ n ih =>
    intro xs ys hlen x y
    cases xs with
    | nil =>
      cases ys with
      | nil => rw [List.nil_append, List.nil_append, classicEditDist_cons_cons]
      | cons y0 ys' =>
        rw [List.nil_append, List.cons_append, classicEditDist_single_left,
          classicEditDist_single_left, classicEditDist_nil_left, classicEditDist_nil_left]
        simp only [List.length_cons, List.length_append, List.length_nil, List.mem_cons,
          List.mem_append, List.mem_singleton]
        split_ifs <;> first | omega | tauto
    | cons x0 xs' =>
      cases ys with
      | nil =>
        rw [List.cons_append, List.nil_append, classicEditDist_single_right,
          classicEditDist_single_right, classicEditDist_nil_right, classicEditDist_nil_right]
        simp only [List.length_cons, List.length_append, List.length_nil, List.mem_cons,
          List.mem_append, List.mem_singleton]
        split_ifs <;> first | omega | tauto
      | cons y0 ys' =>
        have e1 := ih xs' ys' (by simp at hlen ⊢; omega) x y
        have e2 := ih (x0 :: xs') ys' (by simp at hlen ⊢; omega) x y
        have e3 := ih xs' (y0 :: ys') (by simp at hlen ⊢; omega) x y
        simp only [List.cons_append] at e1 e2 e3 ⊢
        rw [classicEditDist_cons_cons x0 y0 (xs' ++ [x]) (ys' ++ [y]), e1, e2, e3,
          classicEditDist_cons_cons x0 y0 xs' ys',
          classicEditDist_cons_cons x0 y0 (xs' ++ [x]) ys',
          classicEditDist_cons_cons x0 y0 xs' (ys' ++ [y])]
        by_cases h1 : x0 = y0 <;> by_cases h2 : x = y
        · simp only [if_pos h1, if_pos h2]
        · simp only [if_pos h1, if_neg h2]
        · simp only [if_neg h1, if_pos h2]
        · simp only [if_neg h1, if_neg h2]
          generalize classicEditDist xs' ys' = dA
          generalize classicEditDist (xs' ++ [x]) ys' = dB
          generalize classicEditDist xs' (ys' ++ [y]) = dC
          generalize classicEditDist (x0 :: xs') ys' = dD
          generalize classicEditDist (x0 :: (xs' ++ [x])) ys' = dE
          generalize classicEditDist (x0 :: xs') (ys' ++ [y]) = dF
          generalize classicEditDist xs' (y0 :: ys') = dG
          generalize classicEditDist (xs' ++ [x]) (y0 :: ys') = dH
          generalize classicEditDist xs' (y0 :: (ys' ++ [y])) = dI
          have hsm : ∀ p q : Nat, min (1 + p) (1 + q) = 1 + min p q := fun p q => by omega
          simp only [hsm]
          ac_rfl

theorem classicEditDist_concat_eq (xs ys : List Char) (x y : Char) :
    classicEditDist (xs ++ [x]) (ys ++ [y]) =
      if x = y then classicEditDist xs ys
      else 1 + min (classicEditDist xs ys)
        (min (classicEditDist (xs ++ [x]) ys) (classicEditDist xs (ys ++ [y]))) :=
  classicEditDist_concat (xs.length + ys.length) xs ys le_rfl x y

/-- The dynamic-programming matrix computes the classic edit distance of the
prefixes. -/
theorem levMat_eq (s1 s2 : List Char) : ∀ (i : Nat), i ≤ s2.length → ∀ (j : Nat),
    j ≤ s1.length → levMat s1 s2 i j = classicEditDist (s1.take j) (s2.take i) := by
  intro i
  induction i with
  | zero =>
    intro _ j hj
    have h0 : levMat s1 s2 0 j = j := rfl
    rw [h0, List.take_zero, classicEditDist_nil_right, List.length_take]
    omega
  | succ i ihi =>
    intro hi
    have ihi' := ihi (by omega)
    intro j
    induction j with
    | zero =>
      intro _
      have h0 : levMat s1 s2 (i + 1) 0 = i + 1 := rfl
      rw [h0, List.take_zero, classicEditDist_nil_left, List.length_take]
      omega
    | succ j ihj =>
      intro hj
      have hj' : j ≤ s1.length := by omega
      have hjlt : j < s1.length := by omega
      have hilt : i < s2.length := by omega
      have ihj' := ihj hj'
      have hstep : levMat s1 s2 (i + 1) (j + 1) =
          if s2[i]? = s1[j]? then levMat s1 s2 i j
          else min (levMat s1 s2 i j + 1)
            (min (levMat s1 s2 (i + 1) j + 1) (levMat s1 s2 i (j + 1) + 1)) := rfl
      have htk1 : s1.take (j + 1) = s1.take j ++ [s1[j]] := by
        rw [List.take_succ, List.getElem?_eq_getElem hjlt]
        rfl
      have htk2 : s2.take (i + 1) = s2.take i ++ [s2[i]] := by
        rw [List.take_succ, List.getElem?_eq_getElem hilt]
        rfl
      rw [hstep, htk1, htk2, classicEditDist_concat_eq, List.getElem?_eq_getElem hjlt,
        List.getElem?_eq_getElem hilt, ← htk1, ← htk2]
      rw [ihi' j hj', ihi' (j + 1) (by omega), ihj']
      by_cases hc : s2[i] = s1[j]
      · rw [if_pos (by rw [hc]), if_pos hc.symm]
      · rw [if_neg (by simpa using hc), if_neg (fun h => hc h.symm)]
        omega

/-- `levenshteinDistance` computes the classic Levenshtein edit distance. -/
theorem levenshteinDistance_eq_classic (a b : String) :
    levenshteinDistance a b = classicEditDist a.data b.data := by
  unfold levenshteinDistance
  rw [levMat_eq a.data b.data b.data.length le_rfl a.data.length le_rfl, List.take_length,
    List.take_length]

/-- The classic edit distance is symmetric. -/
theorem classicEditDist_symm : ∀ (n : Nat) (xs ys : List Char), xs.length + ys.length ≤ n →
    classicEditDist xs ys = classicEditDist ys xs := by
  intro n
  induction n with
  | zero =>
    intro xs ys hlen
    have hxs : xs = [] := by cases xs with | nil => rfl | cons a t => simp at hlen
    have hys : ys = [] := by cases ys with | nil => rfl | cons a t => simp at hlen
    subst hxs; subst hys
    rfl
  | succ n ih =>
    intro xs ys hlen
    cases xs with
    | nil => rw [classicEditDist_nil_right, classicEditDist_nil_left]
    | cons x0 xs' =>
      cases ys with
      | nil => rw [classicEditDist_nil_right, classicEditDist_nil_left]
      | cons y0 ys' =>
        rw [classicEditDist_cons_cons, classicEditDist_cons_cons,
          ih xs' ys' (by simp at hlen ⊢; omega),
          ih (x0 :: xs') ys' (by simp at hlen ⊢; omega),
          ih xs' (y0 :: ys') (by simp at hlen ⊢; omega)]
        by_cases h : x0 = y0
        · rw [if_pos h, if_pos h.symm]
        · rw [if_neg h, if_neg (fun hh => h hh.symm)]
          omega

theorem levenshteinDistance_symm (a b : String) :
    levenshteinDistance a b = levenshteinDistance b a := by
  rw [levenshteinDistance_eq_classic, levenshteinDistance_eq_classic,
    classicEditDist_symm (a.data.length + b.data.length) a.data b.data le_rfl]

/-! ### Further helper lemmas -/

theorem safeLower_str (s : String) : safeLower (.str s) = jsToLower s := by
  by_cases hs : s = ""
  · subst hs
    rfl
  · unfold safeLower jsOr
    rw [if_pos (by simp [truthy, hs])]

theorem jsSlice_zero (l : List α) : jsSlice l 0 = [] := by
  simp [jsSlice]

/-- Concatenation of a list of strings (used to state the accumulated
enhancement suffix of `enhanceQuery`). -/
def joinAll : List String → String
  | [] => ""
  | a :: t => a ++ joinAll t

theorem foldl_append_filter {α : Type} (c : α → Bool) (g : α → String) :
    ∀ (l : List α) (acc : String),
      l.foldl (fun a p => if c p then a ++ g p else a) acc =
        acc ++ joinAll ((l.filter c).map g) := by
  intro l
  induction l with
  | nil =>
    intro acc
    simp [joinAll, String.append_empty]
  | cons h t ih =>
    intro acc
    by_cases hc : c h
    · simp only [List.foldl_cons, if_pos hc, ih, List.filter_cons, hc, if_true, List.map_cons,
        joinAll, String.append_assoc]
    · simp only [List.foldl_cons, if_neg hc, ih, List.filter_cons, hc, Bool.false_eq_true,
        if_false]

theorem foldl_add_map {α : Type} (f : α → Int) : ∀ (l : List α) (i : Int),
    l.foldl (fun sc t => sc + f t) i = i + (l.map f).sum := by
  intro l
  induction l with
  | nil => intro i; simp
  | cons a t ih => intro i; simp [ih]; ring

/-! ### The claims -/

/-- C3.  `levenshteinDistance(a, b)` equals the classic Levenshtein edit
distance (insertion, deletion, substitution each of cost 1) for every pair of
strings; in particular `levenshteinDistance "kitten" "sitting" = 3`. -/
theorem C3_levenshtein_is_classic :
    (∀ a b : String, levenshteinDistance a b = classicEditDist a.data b.data) ∧
      levenshteinDistance "kitten" "sitting" = 3 :=
  ⟨levenshteinDistance_eq_classic, by decide⟩

/-- C5.  `enhanceQuery` returns the original (non-lowered) query with, for
each trigger key whose lowercase form is a substring of the lowercased query,
that trigger's synonym list appended space-joined at the end, accumulating in
mapping-declaration order; any input is accepted and the query is returned
unchanged when no trigger matches.  The triggers are exactly
travel, food, hotel, activity. -/
theorem C5_enhanceQuery_appends_synonyms (query : String) :
    enhanceQuery query = query ++ joinAll
      ((synonymPairs.filter fun p => jsIncludes (jsToLower query) p.1).map
        fun p => " " ++ joinSp p.2) ∧
    ((∀ p ∈ synonymPairs, jsIncludes (jsToLower query) p.1 = false) →
      enhanceQuery query = query) ∧
    synonymPairs.map Prod.fst = ["travel", "food", "hotel", "activity"] := by
  have hmain : enhanceQuery query = query ++ joinAll
      ((synonymPairs.filter fun p => jsIncludes (jsToLower query) p.1).map
        fun p => " " ++ joinSp p.2) := by
    unfold enhanceQuery
    exact foldl_append_filter _ _ synonymPairs query
  refine ⟨hmain, ?_, by decide⟩
  intro hnone
  rw [hmain, List.filter_eq_nil_iff.mpr (fun p hp => by simp [hnone p hp]), List.map_nil]
  exact String.append_empty query

/-- C7.  On upstream fetch failure, `intelligentSearch` does not propagate
the failure but returns the result of invoking plain `searchContent` with the
same parameters, while `searchContent` itself propagates the fetch failure as
a typed error carrying the upstream error message. -/
theorem C7_fetch_failure_fallback (msg : String) (fallbackFetch : Except String (List Entry))
    (query : String) (maxResults : Int) :
    intelligentSearch (.error msg) fallbackFetch query maxResults =
      searchContent fallbackFetch query maxResults ∧
    searchContent (.error msg) query maxResults =
      .error ("Failed to search content: " ++ ("Failed to fetch entries: " ++ msg)) :=
  ⟨rfl, rfl⟩

/-- C8 (counterexample).  Under intelligent-search enhancement, the query
"Paris food tour" is ɴᴏᴛ expanded with the travel synonyms: none of trip,
journey, vacation is in its term set, refuting the claim that the
travel-synonym terms are appended. -/
theorem C8_counterexample :
    "trip" ∉ jsSplit (jsToLower (enhanceQuery "Paris food tour")) ∧
    "journey" ∉ jsSplit (jsToLower (enhanceQuery "Paris food tour")) ∧
    "vacation" ∉ jsSplit (jsToLower (enhanceQuery "Paris food tour")) := by
  decide

/-- C8 (amended).  The term set of the enhanced query "Paris food tour"
contains the food synonyms (cuisine, dining, restaurant, meal) and the word
tour (already present in the query), but none of the travel synonyms trip,
journey, vacation: the travel trigger does not fire because "travel" is not a
substring of the query. -/
theorem C8_amended :
    "cuisine" ∈ jsSplit (jsToLower (enhanceQuery "Paris food tour")) ∧
    "dining" ∈ jsSplit (jsToLower (enhanceQuery "Paris food tour")) ∧
    "restaurant" ∈ jsSplit (jsToLower (enhanceQuery "Paris food tour")) ∧
    "meal" ∈ jsSplit (jsToLower (enhanceQuery "Paris food tour")) ∧
    "tour" ∈ jsSplit (jsToLower (enhanceQuery "Paris food tour")) ∧
    "trip" ∉ jsSplit (jsToLower (enhanceQuery "Paris food tour")) ∧
    "journey" ∉ jsSplit (jsToLower (enhanceQuery "Paris food tour")) ∧
    "vacation" ∉ jsSplit (jsToLower (enhanceQuery "Paris food tour")) := by
  decide

/-- C5 (witness): the formula instantiated at "Paris food", and the
unchanged-on-no-trigger clause instantiated at "xyz". -/
theorem C5_witness :
    enhanceQuery "Paris food" = "Paris food" ++ joinAll
      ((synonymPairs.filter fun p => jsIncludes (jsToLower "Paris food") p.1).map
        fun p => " " ++ joinSp p.2) ∧
    enhanceQuery "xyz" = "xyz" :=
  ⟨(C5_enhanceQuery_appends_synonyms "Paris food").1,
    (C5_enhanceQuery_appends_synonyms "xyz").2.1 (by decide)⟩

theorem seven_tenths : Rat.divInt 7 10 = (7 : Rat) / 10 := by
  rw [Rat.divInt_eq_div]
  norm_num

theorem divInt_formula (L d : Nat) (hL : L ≠ 0) :
    Rat.divInt ((L : Int) - (d : Int)) (L : Int) = 1 - (d : Rat) / (L : Rat) := by
  rw [Rat.divInt_eq_div]
  have hL' : (L : Rat) ≠ 0 := by exact_mod_cast hL
  push_cast
  field_simp

/-- C4.  `fuzzyMatch(term, text)` is true iff some space-split word of `text`
has, together with `term`, length at least 3 and similarity strictly above
`0.7`; the similarity is `1 - editDistance(longer, shorter) / length(longer)`
(with value 1 when the longer string is empty), is symmetric in its two
arguments, and `fuzzyMatch` is false whenever the term is shorter than 3
characters. -/
theorem C4_fuzzyMatch_spec (term text : String) :
    (fuzzyMatch term text = true ↔ ∃ w ∈ jsSplit text,
      3 ≤ term.length ∧ 3 ≤ w.length ∧ (7 : Rat) / 10 < calculateSimilarity term w) ∧
    (∀ s1 s2 : String, calculateSimilarity s1 s2 =
      if (if s2.length < s1.length then s1 else s2).length = 0 then 1
      else 1 - (levenshteinDistance (if s2.length < s1.length then s1 else s2)
          (if s2.length < s1.length then s2 else s1) : Rat) /
        ((if s2.length < s1.length then s1 else s2).length : Rat)) ∧
    (∀ s1 s2 : String, calculateSimilarity s1 s2 = calculateSimilarity s2 s1) ∧
    (term.length < 3 → fuzzyMatch term text = false) := by
  refine ⟨?_, ?_, ?_, ?_⟩
  · unfold fuzzyMatch
    rw [List.any_eq_true]
    constructor
    · rintro ⟨w, hw, hpred⟩
      refine ⟨w, hw, ?_⟩
      by_cases h1 : w.length < 3
      · rw [if_pos (by simp [h1])] at hpred
        cases hpred
      · by_cases h2 : term.length < 3
        · rw [if_pos (by simp [h2])] at hpred
          cases hpred
        · rw [if_neg (by simp [h1, h2])] at hpred
          refine ⟨by omega, by omega, ?_⟩
          rw [← seven_tenths]
          simpa using hpred
    · rintro ⟨w, hw, ht3, hw3, hsim⟩
      refine ⟨w, hw, ?_⟩
      rw [if_neg (by simp; omega)]
      rw [seven_tenths]
      simpa using hsim
  · intro s1 s2
    by_cases hc : s2.length < s1.length
    · simp only [calculateSimilarity, if_pos hc]
      by_cases h0 : s1.length = 0
      · rw [if_pos h0, if_pos h0]
      · rw [if_neg h0, if_neg h0, divInt_formula _ _ h0]
    · simp only [calculateSimilarity, if_neg hc]
      by_cases h0 : s2.length = 0
      · rw [if_pos h0, if_pos h0]
      · rw [if_neg h0, if_neg h0, divInt_formula _ _ h0]
  · intro s1 s2
    by_cases h1 : s2.length < s1.length
    · have h2 : ¬ s1.length < s2.length := by omega
      simp only [calculateSimilarity, if_pos h1, if_neg h2]
    · by_cases h2 : s1.length < s2.length
      · simp only [calculateSimilarity, if_neg h1, if_pos h2]
      · have heq : s1.length = s2.length := by omega
        simp only [calculateSimilarity, if_neg h1, if_neg h2]
        rw [← heq, levenshteinDistance_symm s2 s1]
  · intro h
    unfold fuzzyMatch
    rw [List.any_eq_false]
    intro w _
    rw [if_pos (by simp [h])]
    simp

/-- C4 (witness): a term of length 2 never fuzzy-matches. -/
theorem C4_witness : fuzzyMatch "ab" "abc def" = false :=
  (C4_fuzzyMatch_spec "ab" "abc def").2.2.2 (by decide)

/-- The score asserted by the specification for the intelligent-search
scorer: an exact-phrase bonus of 10 when the combined lowercased
title/description text contains the original lowercased query, plus, summed
independently over the space-split terms of the enhanced query, 5 for a
title substring match, 2 for a description substring match and 1 for a fuzzy
match against the combined text; missing fields read as the empty string. -/
def intelClaimScore (e : Entry) (query : String) : Int :=
  (if jsIncludes (safeLower (getField e "title") ++ " " ++ safeLower (descChainIntel e))
      (jsToLower query) then 10 else 0) +
    ((jsSplit (jsToLower (enhanceQuery query))).map fun t =>
      (if jsIncludes (safeLower (getField e "title")) t then 5 else 0) +
        (if jsIncludes (safeLower (descChainIntel e)) t then 2 else 0) +
        (if fuzzyMatch t (safeLower (getField e "title") ++ " " ++
          safeLower (descChainIntel e)) then 1 else 0)).sum

/-- C2.  On every well-formed entry and non-empty query, the scoring map of
`intelligentSearch` annotates the entry with exactly the specification's
score, and with relevance equal to that score divided by
`max(numberOfTerms, 1)`. -/
theorem C2_intelligent_score (e : Entry) (query : String) (hq : query ≠ "")
    (hsafe : entrySafe e = true) :
    scoreIntelEntry query (jsSplit (jsToLower (enhanceQuery query))) e = .ok
      { fields := e
        score := some (intelClaimScore e query)
        relevance := some ((intelClaimScore e query : Rat) /
          ((max (jsSplit (jsToLower (enhanceQuery query))).length 1 : Nat) : Rat)) } := by
  have hs : intelScoreOf query (jsSplit (jsToLower (enhanceQuery query))) e =
      intelClaimScore e query := by
    unfold intelScoreOf intelScoreTerms intelClaimScore
    rw [foldl_add_map, zero_add]
    rfl
  rw [scoreIntelEntry_safe query _ hsafe]
  unfold intelAnnotate
  rw [hs, Rat.divInt_eq_div]
  norm_cast

/-- C2 (witness). -/
theorem C2_witness :
    scoreIntelEntry "paris" (jsSplit (jsToLower (enhanceQuery "paris")))
        [("title", .str "Paris Tour"), ("description", .str "A fine trip")] = .ok
      { fields := [("title", .str "Paris Tour"), ("description", .str "A fine trip")]
        score := some (intelClaimScore
          [("title", .str "Paris Tour"), ("description", .str "A fine trip")] "paris")
        relevance := some ((intelClaimScore
            [("title", .str "Paris Tour"), ("description", .str "A fine trip")] "paris" : Rat) /
          ((max (jsSplit (jsToLower (enhanceQuery "paris"))).length 1 : Nat) : Rat)) } :=
  C2_intelligent_score [("title", .str "Paris Tour"), ("description", .str "A fine trip")]
    "paris" (by decide) (by decide)

/-- C10.  In plain `searchContent`, when the title field is a string, a term
contained in the lowercased title is also contained in the all-string-fields
text, so a title match earns both the title weight and the whole-entry-text
weight: at least 6 points, never 5 alone. -/
theorem C10_title_match_contributes_six (e : Entry) (term s : String)
    (htitle : getField e "title" = .str s)
    (hmatch : jsIncludes (safeLower (getField e "title")) term = true) :
    jsIncludes (allTextOf e) term = true ∧
      6 ≤ plainTermPoints (safeLower (getField e "title")) (safeLower (descChainPlain e))
        (allTextOf e) term := by
  have hs : safeLower (getField e "title") = jsToLower s := by rw [htitle, safeLower_str]
  have hmem : s ∈ stringValues e := by
    unfold getField at htitle
    rcases hfind : e.find? (fun p => decide (p.1 = "title")) with _ | p
    · rw [hfind] at htitle
      have habs : JsValue.undefv = JsValue.str s := htitle
      cases habs
    · rw [hfind] at htitle
      have htitle2 : p.2 = JsValue.str s := htitle
      have hp : p ∈ e := List.mem_of_find?_eq_some hfind
      refine List.mem_filterMap.mpr ⟨p, hp, ?_⟩
      rw [htitle2]
  have hjoin : jsIncludes (joinSp (stringValues e)) s = true := jsIncludes_joinSp hmem
  have hall : jsIncludes (allTextOf e) (jsToLower s) = true := by
    unfold allTextOf
    exact jsIncludes_jsToLower hjoin
  have hterm : jsIncludes (allTextOf e) term = true := by
    refine jsIncludes_trans ?_ hall
    rwa [hs] at hmatch
  refine ⟨hterm, ?_⟩
  unfold plainTermPoints
  rw [if_pos hmatch, if_pos hterm]
  by_cases hd : jsIncludes (safeLower (descChainPlain e)) term = true
  · rw [if_pos hd]
    omega
  · rw [if_neg hd]
    omega

/-- C10 (witness). -/
theorem C10_witness :
    jsIncludes (allTextOf [("title", .str "Paris Tour"), ("price", .num 30)]) "par" = true ∧
      6 ≤ plainTermPoints
        (safeLower (getField [("title", .str "Paris Tour"), ("price", .num 30)] "title"))
        (safeLower (descChainPlain [("title", .str "Paris Tour"), ("price", .num 30)]))
        (allTextOf [("title", .str "Paris Tour"), ("price", .num 30)]) "par" :=
  C10_title_match_contributes_six [("title", .str "Paris Tour"), ("price", .num 30)] "par"
    "Paris Tour" (by decide) (by decide)

/-- C1.  For a successful fetch of well-formed entries and a non-empty query,
any sequence returned by `searchContent` or `intelligentSearch` contains only
entries with a positive score annotation, has length at most `maxResults`, is
ordered non-increasingly by score, and preserves fetch order among equal
scores (stability), relative to its fetch-order scored list. -/
theorem C1_ranked_invariant (entries : List Entry) (query : String) (n : Nat)
    (result : List SEntry) (fallbackFetch : Except String (List Entry))
    (hq : query ≠ "") (hsafe : ∀ e ∈ entries, entrySafe e = true) :
    (searchContent (.ok entries) query (n : Int) = .ok result →
      RankedProps result n (plainReference entries query)) ∧
    (intelligentSearch (.ok entries) fallbackFetch query (n : Int) = .ok result →
      RankedProps result n (intelReference entries query)) := by
  constructor
  · intro h
    rw [searchContent_ok (n : Int) hq hsafe, jsSlice_ofNat] at h
    injection h with h
    rw [← h]
    exact rankedProps_pipeline _ n
  · intro h
    rw [intelligentSearch_ok fallbackFetch (n : Int) hq hsafe, jsSlice_ofNat] at h
    injection h with h
    rw [← h]
    exact rankedProps_pipeline _ n

/-- Three concrete fetched entries used by the witnesses: two match the query
"paris" with equal scores, one does not match. -/
def demoEntries : List Entry :=
  [[("title", .str "Paris one"), ("description", .str "romantic trip")],
   [("title", .str "Tokyo")],
   [("title", .str "Paris two")]]

/-- C1 (witness): the invariant holds for the concrete outputs of both search
variants on `demoEntries` with query "paris" and `maxResults = 2`. -/
theorem C1_witness :
    RankedProps
      [⟨[("title", .str "Paris one"), ("description", .str "romantic trip")], some 6, none⟩,
       ⟨[("title", .str "Paris two")], some 6, none⟩] 2
      (plainReference demoEntries "paris") ∧
    RankedProps
      [⟨[("title", .str "Paris one"), ("description", .str "romantic trip")], some 16,
         some (Rat.divInt 16 1)⟩,
       ⟨[("title", .str "Paris two")], some 16, some (Rat.divInt 16 1)⟩] 2
      (intelReference demoEntries "paris") :=
  ⟨(C1_ranked_invariant demoEntries "paris" 2
      [⟨[("title", .str "Paris one"), ("description", .str "romantic trip")], some 6, none⟩,
       ⟨[("title", .str "Paris two")], some 6, none⟩] (.ok [])
      (by decide) (by decide)).1 (by decide),
   (C1_ranked_invariant demoEntries "paris" 2
      [⟨[("title", .str "Paris one"), ("description", .str "romantic trip")], some 16,
         some (Rat.divInt 16 1)⟩,
       ⟨[("title", .str "Paris two")], some 16, some (Rat.divInt 16 1)⟩] (.ok [])
      (by decide) (by decide)).2 (by decide)⟩

/-- C6 (counterexample).  With a negative `maxResults`, neither search
returns an empty sequence: JS `slice(0, -1)` keeps all but the last ranked
entry, so two matching entries leave one in the output. -/
theorem C6_counterexample :
    searchContent (.ok demoEntries) "paris" (-1) ≠ .ok ([] : List SEntry) ∧
    intelligentSearch (.ok demoEntries) (.ok demoEntries) "paris" (-1)
      ≠ .ok ([] : List SEntry) := by
  constructor
  · decide
  · decide

/-- C6 (amended).  For `maxResults = 0` (with a successful fetch of
well-formed entries) both searches return the empty sequence. -/
theorem C6_amended (entries : List Entry) (query : String)
    (fallbackFetch : Except String (List Entry))
    (hsafe : ∀ e ∈ entries, entrySafe e = true) :
    searchContent (.ok entries) query 0 = .ok [] ∧
    intelligentSearch (.ok entries) fallbackFetch query 0 = .ok [] := by
  constructor
  · by_cases hq : query = ""
    · subst hq
      have hshape : searchContent (.ok entries) "" 0 =
          .ok ((jsSlice entries 0).map fun e => ⟨e, none, none⟩) := rfl
      rw [hshape, jsSlice_zero]
      rfl
    · rw [searchContent_ok 0 hq hsafe, jsSlice_zero]
  · by_cases hq : query = ""
    · subst hq
      have hshape : intelligentSearch (.ok entries) fallbackFetch "" 0 =
          .ok ((jsSlice entries 0).map fun e => ⟨e, none, none⟩) := rfl
      rw [hshape, jsSlice_zero]
      rfl
    · rw [intelligentSearch_ok fallbackFetch 0 hq hsafe, jsSlice_zero]

/-- C6 (witness for the amended claim). -/
theorem C6_witness :
    searchContent (.ok demoEntries) "paris" 0 = .ok [] ∧
    intelligentSearch (.ok demoEntries) (.ok []) "paris" 0 = .ok [] :=
  C6_amended demoEntries "paris" (.ok []) (by decide)

/-- An entry whose title is a truthy non-string (a number). -/
def badEntry : Entry := [("title", .num 42)]

/-- C9 (counterexample).  A truthy non-string title is not treated as the
empty string: `(42).toLowerCase()` throws, so `searchContent` rethrows the
`TypeError` and `intelligentSearch`'s fallback fails the same way — the
scoring pass does not complete. -/
theorem C9_counterexample :
    searchContent (.ok [badEntry]) "x" 10 =
      .error "Failed to search content: TypeError: toLowerCase is not a function" ∧
    intelligentSearch (.ok [badEntry]) (.ok [badEntry]) "x" 10 =
      .error "Failed to search content: TypeError: toLowerCase is not a function" ∧
    (¬ ∃ r : List SEntry, searchContent (.ok [badEntry]) "x" 10 = .ok r) := by
  have h1 : searchContent (.ok [badEntry]) "x" 10 =
      .error "Failed to search content: TypeError: toLowerCase is not a function" := by
    decide
  refine ⟨h1, by decide, ?_⟩
  rintro ⟨r, hr⟩
  rw [h1] at hr
  cases hr

/-- C9 (amended).  Entries whose title/description-like fields are strings or
falsy never make the scoring throw: both searches succeed, and the
lowercasing primitive maps every falsy field to the empty string. -/
theorem C9_amended (entries : List Entry) (query : String) (maxResults : Int)
    (fallbackFetch : Except String (List Entry))
    (hsafe : ∀ e ∈ entries, entrySafe e = true) :
    (∃ r, searchContent (.ok entries) query maxResults = .ok r) ∧
    (∃ r, intelligentSearch (.ok entries) fallbackFetch query maxResults = .ok r) ∧
    (∀ v, truthy v = false → lowerOrEmpty v = .ok "") := by
  refine ⟨?_, ?_, ?_⟩
  · by_cases hq : query = ""
    · subst hq
      exact ⟨(jsSlice entries maxResults).map fun e => ⟨e, none, none⟩, rfl⟩
    · exact ⟨_, searchContent_ok maxResults hq hsafe⟩
  · by_cases hq : query = ""
    · subst hq
      exact ⟨(jsSlice entries maxResults).map fun e => ⟨e, none, none⟩, rfl⟩
    · exact ⟨_, intelligentSearch_ok fallbackFetch maxResults hq hsafe⟩
  · intro v hv
    cases v with
    | str s =>
      have hse : s = "" := by simpa [truthy] using hv
      subst hse
      rfl
    | num n =>
      have hn : n = 0 := by simpa [truthy] using hv
      subst hn
      rfl
    | nullv => rfl
    | undefv => rfl

/-- C9 (witness for the amended claim). -/
theorem C9_witness :
    (∃ r, searchContent (.ok demoEntries) "paris" 10 = .ok r) ∧
    (∃ r, intelligentSearch (.ok demoEntries) (.ok []) "paris" 10 = .ok r) ∧
    (∀ v, truthy v = false → lowerOrEmpty v = .ok "") :=
  C9_amended demoEntries "paris" 10 (.ok []) (by decide)

end ContentstackService
